import Mathlib

/-!
Verification of the market-data demo program (src/main.cpp).

The program spawns 5 worker threads; each worker draws two random doubles
from std::uniform_real_distribution(1.0, 100.0), builds one BondMarketData
and one InterestRateMarketData, and appends both to a shared
DataProcessor<MarketData> while holding a single std::mutex.  After joining
all workers, main calls processAll(), which iterates the vector in order,
calls process() on each element, and catches std::exception per element,
logging to std::cerr and continuing.  main returns 0.

Numeric doubles are modelled as rationals (the program stores and prints
them, performing no arithmetic).  Console output is modelled as a trace of
events; the rendering of a double by operator<< is an abstract function
fmt : Q -> String.  The concurrent phase is modelled by a small-step
relation in which each worker acquires the lock, performs its two addData
calls, and releases the lock, interleaved nondeterministically with the
other workers.
-/

/-- The closed set of market-data kinds (classes BondMarketData and
InterestRateMarketData in src/main.cpp), each holding one numeric field. -/
inductive MarketData where
  | bond (bondPrice : ℚ)
  | interestRate (interestRate : ℚ)
deriving DecidableEq

/-- The numeric field stored in a market-data element at construction. -/
def MarketData.value : MarketData → ℚ
  | .bond p => p
  | .interestRate r => r

/-- Observable console events of a run: a line on standard output, a line on
standard error, or the invocation of process() on an element. -/
inductive Event (T : Type) where
  | out (line : String)
  | err (line : String)
  | call (d : T)
deriving DecidableEq

/-- Projects a call event to the element it invoked process() on. -/
def Event.callOf : Event T → Option T
  | .call d => some d
  | _ => none

/-- DataProcessor<T> from src/main.cpp: its state is the vector
marketDataList of owned elements. -/
structure DataProcessor (T : Type) where
  marketDataList : List T
deriving DecidableEq

/-- DataProcessor::addData: push_back, appending the element at the end. -/
def DataProcessor.addData (p : DataProcessor T) (d : T) : DataProcessor T :=
  ⟨p.marketDataList ++ [d]⟩

/-- One iteration of the processAll loop body on element d.  The behaviour of
a process() implementation is a pair: the lines it writes to standard output,
and optionally the message of an exception it throws at the end.  The loop
records the invocation, the output, and - when an exception is thrown - the
catch handler's line on standard error. -/
def processElem (process : T → List String × Option String) (d : T) : List (Event T) :=
  Event.call d :: (process d).1.map Event.out ++
    (match (process d).2 with
     | none => []
     | some e => [Event.err ("Exception while processing market data: " ++ e)])

/-- DataProcessor::processAll: iterates marketDataList in order, invoking
process() on each element inside a try/catch.  Returns the event trace. -/
def DataProcessor.processAll (process : T → List String × Option String)
    (p : DataProcessor T) : List (Event T) :=
  (p.marketDataList.map (processElem process)).flatten

/-- processAll together with the DataProcessor state after the call; the loop
body only reads the vector (data->process()), so the state is returned as it
was. -/
def DataProcessor.processAllSt (process : T → List String × Option String)
    (p : DataProcessor T) : List (Event T) × DataProcessor T :=
  (p.processAll process, p)

/-- The process() overrides of BondMarketData and InterestRateMarketData:
each writes one line to standard output and throws nothing.  fmt is the
rendering of a double by the stream. -/
def processMarketData (fmt : ℚ → String) : MarketData → List String × Option String
  | .bond p => (["Processing Bond Market Data: Price = " ++ fmt p], none)
  | .interestRate r => (["Processing Interest Rate Market Data: Rate = " ++ fmt r], none)

/-- A process() behaviour that always throws, used to exercise the catch
branch of processAll. -/
def procBoom : String → List String × Option String :=
  fun _ => ([], some "boom")

/-- Modelled from the C++ standard library contract (not in src/):
std::uniform_real_distribution(lo, hi) produces values x with lo ≤ x < hi.
simulateMarketData instantiates it with (1.0, 100.0). -/
def inUniformSupport (lo hi x : ℚ) : Prop := lo ≤ x ∧ x < hi

instance (lo hi x : ℚ) : Decidable (inUniformSupport lo hi x) :=
  inferInstanceAs (Decidable (_ ∧ _))

/-! ### The concurrent phase

Each worker thread runs simulateMarketData: it generates its two random
values (outside the lock), acquires the shared mutex, appends its
BondMarketData, appends its InterestRateMarketData, and releases the mutex.
The interleaving of the n workers is nondeterministic; the lock serialises
the critical sections. -/

/-- Program counter of one worker thread through simulateMarketData:
before the lock_guard, holding the lock with 0, 1 or 2 elements inserted,
and finished (lock released). -/
inductive PC where
  | ready
  | cs0
  | cs1
  | cs2
  | done
deriving DecidableEq

/-- The two random values each worker drew before entering the lock. -/
structure Vals (n : Nat) where
  bondPrice : Fin n → ℚ
  rate : Fin n → ℚ

/-- Pointwise update of the program-counter map. -/
def updPC (f : Fin n → PC) (i : Fin n) (x : PC) : Fin n → PC :=
  fun j => if j = i then x else f j

/-- Global state of the concurrent phase: each worker's program counter, the
holder of the mutex, and the shared DataProcessor. -/
structure SysState (n : Nat) where
  pc : Fin n → PC
  lock : Option (Fin n)
  processor : DataProcessor MarketData

/-- Initial state: every worker about to lock, mutex free, empty processor. -/
def initState (n : Nat) : SysState n :=
  ⟨fun _ => PC.ready, none, ⟨[]⟩⟩

/-- One interleaved step of the concurrent phase.  The lock_guard makes
acquisition exclusive; addData may only run while holding the mutex; the
guard is released after both insertions. -/
inductive Step (v : Vals n) : SysState n → SysState n → Prop where
  | acquire (s : SysState n) (i : Fin n) (h : s.pc i = PC.ready) (hl : s.lock = none) :
      Step v s ⟨updPC s.pc i PC.cs0, some i, s.processor⟩
  | addBond (s : SysState n) (i : Fin n) (h : s.pc i = PC.cs0) (hl : s.lock = some i) :
      Step v s ⟨updPC s.pc i PC.cs1, s.lock,
        s.processor.addData (MarketData.bond (v.bondPrice i))⟩
  | addRate (s : SysState n) (i : Fin n) (h : s.pc i = PC.cs1) (hl : s.lock = some i) :
      Step v s ⟨updPC s.pc i PC.cs2, s.lock,
        s.processor.addData (MarketData.interestRate (v.rate i))⟩
  | release (s : SysState n) (i : Fin n) (h : s.pc i = PC.cs2) (hl : s.lock = some i) :
      Step v s ⟨updPC s.pc i PC.done, none, s.processor⟩

/-- States reachable from the start of the concurrent phase. -/
def Reachable (v : Vals n) (s : SysState n) : Prop :=
  Relation.ReflTransGen (Step v) (initState n) s

/-- The pair of elements worker i inserts, in insertion order. -/
def workerBlock (v : Vals n) (i : Fin n) : List MarketData :=
  [MarketData.bond (v.bondPrice i), MarketData.interestRate (v.rate i)]

/-- The segment of the shared list contributed so far by worker i, as a
function of its program counter. -/
def seg (v : Vals n) (pc : Fin n → PC) (i : Fin n) : List MarketData :=
  if pc i = PC.cs1 then [MarketData.bond (v.bondPrice i)] else workerBlock v i

/-- The worker is inside the critical section (holds the mutex). -/
def inCS (c : PC) : Prop := c = PC.cs0 ∨ c = PC.cs1 ∨ c = PC.cs2

/-- The worker has inserted at least one element. -/
def started (c : PC) : Prop := c = PC.cs1 ∨ c = PC.cs2 ∨ c = PC.done

/-- Run-time invariant of the concurrent phase: the mutex holder is exactly
the worker inside the critical section, and the shared list is the
concatenation, in some duplicate-free order, of the segments of the workers
that have started inserting, with a half-inserted worker only at the end. -/
def SysInv (v : Vals n) (s : SysState n) : Prop :=
  (∀ i, inCS (s.pc i) → s.lock = some i) ∧
  (∀ i, s.lock = some i → inCS (s.pc i)) ∧
  ∃ order : List (Fin n),
    order.Nodup ∧
    (∀ i, i ∈ order ↔ started (s.pc i)) ∧
    s.processor.marketDataList = (order.map (seg v s.pc)).flatten ∧
    (∀ i, s.pc i = PC.cs1 → order.getLast? = some i)

/-- Two elements occur contiguously, in this order, in the list. -/
def pairContiguous (l : List MarketData) (a b : MarketData) : Prop :=
  ∃ A B, l = A ++ a :: b :: B

/-- a sits immediately before b in the list. -/
def immediatelyBefore (l : List MarketData) (a b : MarketData) : Prop :=
  ∃ k, l[k]? = some a ∧ l[k + 1]? = some b

/-- The list grows: the new list extends the old one at the end. -/
def growsTo (l l' : List MarketData) : Prop :=
  ∃ t, l' = l ++ t

/-- The tail of main after the join barrier: run processAll on the shared
processor and return 0. -/
def mainResultWith (process : MarketData → List String × Option String)
    (s : SysState n) : List (Event MarketData) × Int :=
  (s.processor.processAll process, 0)

/-- A deterministic schedule of worker i's four steps, used to exhibit
concrete runs. -/
def execWorker (v : Vals n) (i : Fin n) (s : SysState n) : SysState n :=
  let s1 : SysState n := ⟨updPC s.pc i PC.cs0, some i, s.processor⟩
  let s2 : SysState n := ⟨updPC s1.pc i PC.cs1, s1.lock,
    s1.processor.addData (MarketData.bond (v.bondPrice i))⟩
  let s3 : SysState n := ⟨updPC s2.pc i PC.cs2, s2.lock,
    s2.processor.addData (MarketData.interestRate (v.rate i))⟩
  ⟨updPC s3.pc i PC.done, none, s3.processor⟩

/-- A concrete assignment of random draws for a 5-worker run. -/
def demoVals : Vals 5 := ⟨fun _ => 2, fun _ => 3⟩

/-- The final state of the fully sequential schedule of the 5 workers. -/
def demoFinal : SysState 5 :=
  execWorker demoVals 4 (execWorker demoVals 3 (execWorker demoVals 2
    (execWorker demoVals 1 (execWorker demoVals 0 (initState 5)))))

/-- The state after the first worker of the demo run acquires the mutex. -/
def demoS1 : SysState 5 :=
  ⟨updPC (initState 5).pc 0 PC.cs0, some 0, (initState 5).processor⟩

/-! ### Theorems about processing (claims C3, C4, C6, C8) -/

theorem calls_map_out (T : Type) (ls : List String) :
    List.filterMap (Event.callOf : Event T → Option T) (ls.map Event.out) = [] := by
  induction ls with
  | nil => rfl
  | cons a ls ih => simp [Event.callOf, ih]

theorem calls_processElem (T : Type) (process : T → List String × Option String) (d : T) :
    (processElem process d).filterMap Event.callOf = [d] := by
  unfold processElem
  cases h : (process d).2 with
  | none => simp [Event.callOf, calls_map_out T]
  | some e => simp [Event.callOf, calls_map_out T]

theorem calls_processAll (process : T → List String × Option String)
    (p : DataProcessor T) :
    (p.processAll process).filterMap Event.callOf = p.marketDataList := by
  obtain ⟨l⟩ := p
  induction l with
  | nil => rfl
  | cons d l ih =>
      simp only [DataProcessor.processAll, List.map_cons, List.flatten_cons,
        List.filterMap_append, calls_processElem] at *
      simp [ih]

/-- C4: processAll invokes process() exactly once on each stored element, in
insertion order: the sequence of call events in its trace is exactly
marketDataList. -/
theorem processAll_calls_each_once_in_order
    (T : Type) (process : T → List String × Option String) (p : DataProcessor T) :
    (p.processAll process).filterMap Event.callOf = p.marketDataList :=
  calls_processAll process p

/-- C3: if the element d in the middle of the list throws with message e, the
trace decomposes around d's iteration, the catch handler's standard-error
line is in that iteration, and every subsequent element is still processed. -/
theorem processAll_skip_and_continue
    (T : Type) (process : T → List String × Option String) (d : T) (e : String)
    (xs ys : List T) (hd : (process d).2 = some e) :
    DataProcessor.processAll process ⟨xs ++ d :: ys⟩ =
      DataProcessor.processAll process ⟨xs⟩ ++ processElem process d ++
        DataProcessor.processAll process ⟨ys⟩ ∧
    Event.err ("Exception while processing market data: " ++ e) ∈ processElem process d ∧
    (DataProcessor.processAll process ⟨ys⟩).filterMap Event.callOf = ys := by
  refine ⟨?_, ?_, calls_processAll process ⟨ys⟩⟩
  · simp [DataProcessor.processAll]
  · unfold processElem
    rw [hd]
    simp

theorem processAll_skip_and_continue_witness :
    DataProcessor.processAll procBoom ⟨["a"] ++ "x" :: ["b"]⟩ =
      DataProcessor.processAll procBoom ⟨["a"]⟩ ++ processElem procBoom "x" ++
        DataProcessor.processAll procBoom ⟨["b"]⟩ ∧
    Event.err ("Exception while processing market data: " ++ "boom") ∈ processElem procBoom "x" ∧
    (DataProcessor.processAll procBoom ⟨["b"]⟩).filterMap Event.callOf = ["b"] :=
  processAll_skip_and_continue String procBoom "x" "boom" ["a"] ["b"] rfl

/-- C6: processAll does not mutate the DataProcessor: calling it twice in
succession produces the same trace twice, and the stored element list is
identical before and after each call. -/
theorem processAll_no_mutation
    (T : Type) (process : T → List String × Option String) (p : DataProcessor T) :
    (p.processAllSt process).1 = (((p.processAllSt process).2).processAllSt process).1 ∧
    ((p.processAllSt process).2).marketDataList = p.marketDataList ∧
    ((((p.processAllSt process).2).processAllSt process).2).marketDataList = p.marketDataList :=
  ⟨rfl, rfl, rfl⟩

/-- C8: a Bond element with stored price x prints exactly
"Processing Bond Market Data: Price = x", an InterestRate element with
stored rate y prints exactly "Processing Interest Rate Market Data: Rate = y"
(x, y rendered by the stream's formatting fmt), and neither throws. -/
theorem process_output_format (fmt : ℚ → String) (x y : ℚ) :
    processMarketData fmt (MarketData.bond x) =
      (["Processing Bond Market Data: Price = " ++ fmt x], none) ∧
    processMarketData fmt (MarketData.interestRate y) =
      (["Processing Interest Rate Market Data: Rate = " ++ fmt y], none) :=
  ⟨rfl, rfl⟩

/-! ### Invariant of the concurrent phase (claims C1, C2, C5, C7, C9, C10) -/

theorem updPC_same (f : Fin n → PC) (i : Fin n) (x : PC) : updPC f i x i = x :=
  if_pos rfl

theorem updPC_ne (f : Fin n → PC) {j i : Fin n} (x : PC) (h : j ≠ i) :
    updPC f i x j = f j :=
  if_neg h

theorem seg_updPC_ne (v : Vals n) (f : Fin n → PC) {j i : Fin n} (x : PC) (h : j ≠ i) :
    seg v (updPC f i x) j = seg v f j := by
  unfold seg
  rw [updPC_ne f x h]

theorem getLast?_split {α : Type} (l : List α) (a : α) (h : l.getLast? = some a) :
    ∃ l', l = l' ++ [a] := by
  induction l with
  | nil => simp at h
  | cons b l ih =>
      cases l with
      | nil =>
          simp at h
          exact ⟨[], by rw [h]; rfl⟩
      | cons c l' =>
          rw [List.getLast?_cons_cons] at h
          obtain ⟨m, hm⟩ := ih h
          exact ⟨b :: m, by rw [List.cons_append, ← hm]⟩

theorem inv_init (v : Vals n) : SysInv v (initState n) := by
  refine ⟨?_, ?_, [], List.nodup_nil, ?_, rfl, ?_⟩
  · intro i hi
    rcases hi with h | h | h <;> simp [initState] at h
  · intro i hi
    simp [initState] at hi
  · intro i
    simp [started, initState]
  · intro i h
    simp [initState] at h

theorem inv_step (v : Vals n) (s s' : SysState n) (hstep : Step v s s')
    (hinv : SysInv v s) : SysInv v s' := by
  obtain ⟨hcs, hlk, order, hnd, hmem, hcol, hlast⟩ := hinv
  cases hstep with
  | acquire i h hl =>
      have hnotin : i ∉ order := fun hi => by
        rcases (hmem i).1 hi with h1 | h1 | h1 <;> rw [h] at h1 <;> exact PC.noConfusion h1
      refine ⟨?_, ?_, order, hnd, ?_, ?_, ?_⟩
      · intro j hj
        have hj' : inCS (updPC s.pc i PC.cs0 j) := hj
        show (some i : Option (Fin n)) = some j
        by_cases hji : j = i
        · rw [hji]
        · rw [updPC_ne _ _ hji] at hj'
          have := hcs j hj'
          rw [hl] at this
          exact Option.noConfusion this
      · intro j hj
        have hj' : (some i : Option (Fin n)) = some j := hj
        have hij : i = j := Option.some.inj hj'
        show inCS (updPC s.pc i PC.cs0 j)
        rw [← hij, updPC_same]
        exact Or.inl rfl
      · intro j
        show j ∈ order ↔ started (updPC s.pc i PC.cs0 j)
        by_cases hji : j = i
        · subst hji
          rw [updPC_same]
          constructor
          · intro hj; exact absurd hj hnotin
          · intro hst; rcases hst with h1 | h1 | h1 <;> exact PC.noConfusion h1
        · rw [updPC_ne _ _ hji]; exact hmem j
      · show s.processor.marketDataList = (order.map (seg v (updPC s.pc i PC.cs0))).flatten
        rw [hcol]
        exact congrArg List.flatten (List.map_congr_left
          (fun j hj => (seg_updPC_ne v s.pc _ (fun (hji : j = i) => hnotin (hji ▸ hj))).symm))
      · intro j hj
        have hj' : updPC s.pc i PC.cs0 j = PC.cs1 := hj
        by_cases hji : j = i
        · subst hji; rw [updPC_same] at hj'; exact PC.noConfusion hj'
        · rw [updPC_ne _ _ hji] at hj'
          exact hlast j hj'
  | addBond i h hl =>
      have hnotin : i ∉ order := fun hi => by
        rcases (hmem i).1 hi with h1 | h1 | h1 <;> rw [h] at h1 <;> exact PC.noConfusion h1
      have hnocs1 : ∀ j, s.pc j ≠ PC.cs1 := by
        intro j hj1
        have hlj := hcs j (Or.inr (Or.inl hj1))
        rw [hl] at hlj
        have hij : i = j := Option.some.inj hlj
        rw [← hij, h] at hj1
        exact PC.noConfusion hj1
      refine ⟨?_, ?_, order ++ [i], ?_, ?_, ?_, ?_⟩
      · intro j hj
        have hj' : inCS (updPC s.pc i PC.cs1 j) := hj
        show s.lock = some j
        by_cases hji : j = i
        · rw [hji]; exact hl
        · rw [updPC_ne _ _ hji] at hj'
          exact hcs j hj'
      · intro j hj
        have hj' : s.lock = some j := hj
        rw [hl] at hj'
        have hij : i = j := Option.some.inj hj'
        show inCS (updPC s.pc i PC.cs1 j)
        rw [← hij, updPC_same]
        exact Or.inr (Or.inl rfl)
      · refine List.nodup_append.mpr ⟨hnd, List.nodup_singleton i, ?_⟩
        intro a ha hb
        rw [List.mem_singleton] at hb
        subst hb
        exact hnotin ha
      · intro j
        show j ∈ order ++ [i] ↔ started (updPC s.pc i PC.cs1 j)
        rw [List.mem_append, List.mem_singleton]
        by_cases hji : j = i
        · subst hji
          rw [updPC_same]
          constructor
          · intro _; exact Or.inl rfl
          · intro _; exact Or.inr rfl
        · rw [updPC_ne _ _ hji]
          constructor
          · intro hj
            rcases hj with hj | hj
            · exact (hmem j).1 hj
            · exact absurd hj hji
          · intro hst; exact Or.inl ((hmem j).2 hst)
      · show s.processor.marketDataList ++ [MarketData.bond (v.bondPrice i)]
            = ((order ++ [i]).map (seg v (updPC s.pc i PC.cs1))).flatten
        rw [List.map_append, List.flatten_append, hcol]
        have hsegi : seg v (updPC s.pc i PC.cs1) i = [MarketData.bond (v.bondPrice i)] := by
          unfold seg
          rw [updPC_same]
          simp
        have hsegs : order.map (seg v (updPC s.pc i PC.cs1)) = order.map (seg v s.pc) :=
          List.map_congr_left (fun j hj => seg_updPC_ne v s.pc _ (fun (hji : j = i) => hnotin (hji ▸ hj)))
        rw [hsegs, List.map_singleton, hsegi]
        simp
      · intro j hj
        have hj' : updPC s.pc i PC.cs1 j = PC.cs1 := hj
        show (order ++ [i]).getLast? = some j
        by_cases hji : j = i
        · subst hji; exact List.getLast?_concat order
        · rw [updPC_ne _ _ hji] at hj'
          exact absurd hj' (hnocs1 j)
  | addRate i h hl =>
      have hlasti := hlast i h
      obtain ⟨o1, ho1⟩ := getLast?_split order i hlasti
      have hio1 : i ∉ o1 := by
        rw [ho1] at hnd
        rcases List.nodup_append.mp hnd with ⟨_, _, hdisj⟩
        intro hi
        exact hdisj hi (List.mem_singleton.mpr rfl)
      have hnocs1 : ∀ j, j ≠ i → s.pc j ≠ PC.cs1 := by
        intro j hji hj1
        have hlj := hcs j (Or.inr (Or.inl hj1))
        rw [hl] at hlj
        exact hji (Option.some.inj hlj).symm
      refine ⟨?_, ?_, order, hnd, ?_, ?_, ?_⟩
      · intro j hj
        have hj' : inCS (updPC s.pc i PC.cs2 j) := hj
        show s.lock = some j
        by_cases hji : j = i
        · rw [hji]; exact hl
        · rw [updPC_ne _ _ hji] at hj'
          exact hcs j hj'
      · intro j hj
        have hj' : s.lock = some j := hj
        rw [hl] at hj'
        have hij : i = j := Option.some.inj hj'
        show inCS (updPC s.pc i PC.cs2 j)
        rw [← hij, updPC_same]
        exact Or.inr (Or.inr rfl)
      · intro j
        show j ∈ order ↔ started (updPC s.pc i PC.cs2 j)
        by_cases hji : j = i
        · subst hji
          rw [updPC_same]
          constructor
          · intro _; exact Or.inr (Or.inl rfl)
          · intro _; rw [ho1]; exact List.mem_append.mpr (Or.inr (List.mem_singleton.mpr rfl))
        · rw [updPC_ne _ _ hji]; exact hmem j
      · show s.processor.marketDataList ++ [MarketData.interestRate (v.rate i)]
            = (order.map (seg v (updPC s.pc i PC.cs2))).flatten
        rw [hcol, ho1, List.map_append, List.flatten_append, List.map_append,
          List.flatten_append]
        have hsegs : o1.map (seg v (updPC s.pc i PC.cs2)) = o1.map (seg v s.pc) :=
          List.map_congr_left (fun j hj => seg_updPC_ne v s.pc _ (fun (hji : j = i) => hio1 (hji ▸ hj)))
        have hsegoldi : seg v s.pc i = [MarketData.bond (v.bondPrice i)] := by
          unfold seg; rw [h]; simp
        have hsegnewi : seg v (updPC s.pc i PC.cs2) i = workerBlock v i := by
          unfold seg; rw [updPC_same]; simp
        rw [hsegs, List.map_singleton, List.map_singleton, hsegoldi, hsegnewi]
        simp [workerBlock]
      · intro j hj
        have hj' : updPC s.pc i PC.cs2 j = PC.cs1 := hj
        by_cases hji : j = i
        · subst hji; rw [updPC_same] at hj'; exact PC.noConfusion hj'
        · rw [updPC_ne _ _ hji] at hj'
          exact absurd hj' (hnocs1 j hji)
  | release i h hl =>
      have honly : ∀ j, j ≠ i → ¬ inCS (s.pc j) := by
        intro j hji hj
        have hlj := hcs j hj
        rw [hl] at hlj
        exact hji (Option.some.inj hlj).symm
      refine ⟨?_, ?_, order, hnd, ?_, ?_, ?_⟩
      · intro j hj
        have hj' : inCS (updPC s.pc i PC.done j) := hj
        show (none : Option (Fin n)) = some j
        by_cases hji : j = i
        · subst hji
          rw [updPC_same] at hj'
          rcases hj' with h1 | h1 | h1 <;> exact PC.noConfusion h1
        · rw [updPC_ne _ _ hji] at hj'
          exact absurd hj' (honly j hji)
      · intro j hj
        have hj' : (none : Option (Fin n)) = some j := hj
        exact Option.noConfusion hj'
      · intro j
        show j ∈ order ↔ started (updPC s.pc i PC.done j)
        by_cases hji : j = i
        · subst hji
          rw [updPC_same]
          constructor
          · intro _; exact Or.inr (Or.inr rfl)
          · intro _
            refine (hmem j).2 ?_
            rw [h]
            exact Or.inr (Or.inl rfl)
        · rw [updPC_ne _ _ hji]; exact hmem j
      · show s.processor.marketDataList = (order.map (seg v (updPC s.pc i PC.done))).flatten
        rw [hcol]
        refine congrArg List.flatten (List.map_congr_left ?_)
        intro j hj
        by_cases hji : j = i
        · subst hji
          unfold seg
          rw [updPC_same, h]
          simp
        · exact (seg_updPC_ne v s.pc _ hji).symm
      · intro j hj
        have hj' : updPC s.pc i PC.done j = PC.cs1 := hj
        by_cases hji : j = i
        · subst hji; rw [updPC_same] at hj'; exact PC.noConfusion hj'
        · rw [updPC_ne _ _ hji] at hj'
          exact absurd (Or.inr (Or.inl hj')) (honly j hji)

theorem inv_reachable (v : Vals n) (s : SysState n) (hs : Reachable v s) :
    SysInv v s := by
  have hs' : Relation.ReflTransGen (Step v) (initState n) s := hs
  clear hs
  induction hs' with
  | refl => exact inv_init v
  | tail hab hstep ih => exact inv_step v _ _ hstep ih

theorem final_structure (v : Vals n) (s : SysState n) (hs : Reachable v s)
    (hdone : ∀ i, s.pc i = PC.done) :
    ∃ order : List (Fin n), order.Nodup ∧ (∀ i, i ∈ order) ∧
      s.processor.marketDataList = (order.map (workerBlock v)).flatten := by
  obtain ⟨_, _, order, hnd, hmem, hcol, _⟩ := inv_reachable v s hs
  refine ⟨order, hnd, ?_, ?_⟩
  · intro i
    exact (hmem i).2 (Or.inr (Or.inr (hdone i)))
  · rw [hcol]
    refine congrArg List.flatten (List.map_congr_left ?_)
    intro j _
    unfold seg
    rw [hdone j]
    simp

theorem flatten_blocks_length (v : Vals n) (order : List (Fin n)) :
    ((order.map (workerBlock v)).flatten).length = 2 * order.length := by
  induction order with
  | nil => rfl
  | cons j order ih =>
      simp only [List.map_cons, List.flatten_cons, List.length_append, ih,
        List.length_cons, workerBlock]
      simp
      omega

theorem complete_order_length {m : Nat} (order : List (Fin m)) (hnd : order.Nodup)
    (hall : ∀ i, i ∈ order) : order.length = m := by
  have h1 : order.toFinset = Finset.univ :=
    Finset.eq_univ_iff_forall.mpr (fun i => List.mem_toFinset.mpr (hall i))
  have h2 := List.toFinset_card_of_nodup hnd
  rw [h1, Finset.card_univ, Fintype.card_fin] at h2
  exact h2.symm

theorem final_pair_decomp (v : Vals n) (s : SysState n) (hs : Reachable v s)
    (hdone : ∀ i, s.pc i = PC.done) (i : Fin n) :
    ∃ A B, s.processor.marketDataList =
      A ++ MarketData.bond (v.bondPrice i) :: MarketData.interestRate (v.rate i) :: B := by
  obtain ⟨order, hnd, hall, hcol⟩ := final_structure v s hs hdone
  obtain ⟨o1, o2, ho⟩ := List.append_of_mem (hall i)
  refine ⟨(o1.map (workerBlock v)).flatten, (o2.map (workerBlock v)).flatten, ?_⟩
  rw [hcol, ho]
  simp [workerBlock]

theorem collector_values (v : Vals n) (s : SysState n) (hs : Reachable v s) :
    ∀ md ∈ s.processor.marketDataList,
      ∃ i, md = MarketData.bond (v.bondPrice i) ∨
        md = MarketData.interestRate (v.rate i) := by
  have hs' : Relation.ReflTransGen (Step v) (initState n) s := hs
  clear hs
  induction hs' with
  | refl =>
      intro md hmd
      exact absurd hmd (List.not_mem_nil md)
  | @tail b c hab hstep ih =>
      intro md hmd
      cases hstep with
      | acquire i h hl => exact ih md hmd
      | addBond i h hl =>
          have hmd' : md ∈ b.processor.marketDataList ++
              [MarketData.bond (v.bondPrice i)] := hmd
          rcases List.mem_append.mp hmd' with hm | hm
          · exact ih md hm
          · exact ⟨i, Or.inl (List.mem_singleton.mp hm)⟩
      | addRate i h hl =>
          have hmd' : md ∈ b.processor.marketDataList ++
              [MarketData.interestRate (v.rate i)] := hmd
          rcases List.mem_append.mp hmd' with hm | hm
          · exact ih md hm
          · exact ⟨i, Or.inr (List.mem_singleton.mp hm)⟩
      | release i h hl => exact ih md hmd

theorem execWorker_reach (v : Vals n) (i : Fin n) (s : SysState n)
    (h : s.pc i = PC.ready) (hl : s.lock = none) :
    Relation.ReflTransGen (Step v) s (execWorker v i s) :=
  Relation.ReflTransGen.head (Step.acquire s i h hl)
    (Relation.ReflTransGen.head (Step.addBond _ i (updPC_same _ _ _) rfl)
      (Relation.ReflTransGen.head (Step.addRate _ i (updPC_same _ _ _) rfl)
        (Relation.ReflTransGen.single (Step.release _ i (updPC_same _ _ _) rfl))))

theorem demoReach : Reachable demoVals demoFinal := by
  show Relation.ReflTransGen (Step demoVals) (initState 5) demoFinal
  refine Relation.ReflTransGen.trans (execWorker_reach demoVals 0 (initState 5) rfl rfl) ?_
  refine Relation.ReflTransGen.trans (execWorker_reach demoVals 1 _ (by decide) (by decide)) ?_
  refine Relation.ReflTransGen.trans (execWorker_reach demoVals 2 _ (by decide) (by decide)) ?_
  refine Relation.ReflTransGen.trans (execWorker_reach demoVals 3 _ (by decide) (by decide)) ?_
  exact execWorker_reach demoVals 4 _ (by decide) (by decide)

/-- C1: after the Driver has joined all 5 workers (every worker done) and
before processAll runs, the shared DataProcessor contains exactly
2 x 5 = 10 MarketData elements. -/
theorem final_collector_has_ten_elements (v : Vals 5) (s : SysState 5)
    (hs : Reachable v s) (hdone : ∀ i, s.pc i = PC.done) :
    s.processor.marketDataList.length = 10 := by
  obtain ⟨order, hnd, hall, hcol⟩ := final_structure v s hs hdone
  rw [hcol, flatten_blocks_length, complete_order_length order hnd hall]

theorem final_collector_has_ten_elements_witness :
    demoFinal.processor.marketDataList.length = 10 :=
  final_collector_has_ten_elements demoVals demoFinal demoReach (by decide)

/-- C2: in every final collector state, the two elements inserted by each
worker occupy adjacent positions: no element from another worker lies
strictly between them, because the lock is held across both addData calls. -/
theorem worker_pair_adjacent (v : Vals n) (s : SysState n)
    (hs : Reachable v s) (hdone : ∀ i, s.pc i = PC.done) (i : Fin n) :
    pairContiguous s.processor.marketDataList
      (MarketData.bond (v.bondPrice i)) (MarketData.interestRate (v.rate i)) :=
  final_pair_decomp v s hs hdone i

theorem worker_pair_adjacent_witness :
    pairContiguous demoFinal.processor.marketDataList
      (MarketData.bond (demoVals.bondPrice 0)) (MarketData.interestRate (demoVals.rate 0)) :=
  worker_pair_adjacent demoVals demoFinal demoReach (by decide) 0

theorem pair_decomp_immediatelyBefore {l : List MarketData} {a b : MarketData}
    (h : ∃ A B, l = A ++ a :: b :: B) : immediatelyBefore l a b := by
  obtain ⟨A, B, hAB⟩ := h
  refine ⟨A.length, ?_, ?_⟩
  · rw [hAB, List.getElem?_append_right (Nat.le_refl A.length)]
    simp
  · rw [hAB, List.getElem?_append_right (Nat.le_succ_of_le (Nat.le_refl A.length))]
    simp

/-- C10: within each worker's adjacent pair, the Bond element is immediately
before the InterestRate element in the final sequence (each worker inserts
its BondMarketData first, then its InterestRateMarketData). -/
theorem worker_bond_before_rate (v : Vals n) (s : SysState n)
    (hs : Reachable v s) (hdone : ∀ i, s.pc i = PC.done) (i : Fin n) :
    immediatelyBefore s.processor.marketDataList
      (MarketData.bond (v.bondPrice i)) (MarketData.interestRate (v.rate i)) :=
  pair_decomp_immediatelyBefore (final_pair_decomp v s hs hdone i)

theorem worker_bond_before_rate_witness :
    immediatelyBefore demoFinal.processor.marketDataList
      (MarketData.bond (demoVals.bondPrice 0)) (MarketData.interestRate (demoVals.rate 0)) :=
  worker_bond_before_rate demoVals demoFinal demoReach (by decide) 0

/-- C5: when every random draw lies in the support of
uniform_real_distribution(1.0, 100.0), every value stored in a constructed
MarketData element of the collector satisfies 1 ≤ v ≤ 100. -/
theorem stored_values_in_bounds (v : Vals n)
    (hv : ∀ i, inUniformSupport 1 100 (v.bondPrice i) ∧ inUniformSupport 1 100 (v.rate i))
    (s : SysState n) (hs : Reachable v s) (md : MarketData)
    (hmd : md ∈ s.processor.marketDataList) :
    1 ≤ md.value ∧ md.value ≤ 100 := by
  obtain ⟨i, hi | hi⟩ := collector_values v s hs md hmd
  · subst hi
    exact ⟨(hv i).1.1, le_of_lt (hv i).1.2⟩
  · subst hi
    exact ⟨(hv i).2.1, le_of_lt (hv i).2.2⟩

theorem stored_values_in_bounds_witness :
    1 ≤ (MarketData.bond 2).value ∧ (MarketData.bond 2).value ≤ 100 :=
  stored_values_in_bounds demoVals (by decide) demoFinal demoReach
    (MarketData.bond 2) (by decide)

/-- C7: the collector only grows and is never mutated afterwards: addData
yields the old sequence with one element appended, every step of the
concurrent phase extends the sequence at the end (removing nothing and
reordering nothing), and processAll leaves the DataProcessor unchanged. -/
theorem collector_only_grows :
    (∀ (T : Type) (p : DataProcessor T) (d : T),
        (p.addData d).marketDataList = p.marketDataList ++ [d]) ∧
    (∀ (m : Nat) (v : Vals m) (s s' : SysState m), Step v s s' →
        growsTo s.processor.marketDataList s'.processor.marketDataList) ∧
    (∀ (T : Type) (process : T → List String × Option String) (p : DataProcessor T),
        (p.processAllSt process).2 = p) := by
  refine ⟨fun T p d => rfl, ?_, fun T process p => rfl⟩
  intro m v s s' hstep
  cases hstep with
  | acquire i h hl => exact ⟨[], (List.append_nil _).symm⟩
  | addBond i h hl => exact ⟨[MarketData.bond (v.bondPrice i)], rfl⟩
  | addRate i h hl => exact ⟨[MarketData.interestRate (v.rate i)], rfl⟩
  | release i h hl => exact ⟨[], (List.append_nil _).symm⟩

theorem collector_only_grows_witness :
    (DataProcessor.addData (⟨[]⟩ : DataProcessor MarketData)
        (MarketData.bond 1)).marketDataList = [] ++ [MarketData.bond 1] ∧
    growsTo (initState 5).processor.marketDataList demoS1.processor.marketDataList ∧
    (DataProcessor.processAllSt procBoom ⟨["a"]⟩).2 = (⟨["a"]⟩ : DataProcessor String) :=
  ⟨collector_only_grows.1 MarketData ⟨[]⟩ (MarketData.bond 1),
   collector_only_grows.2.1 5 demoVals (initState 5) demoS1
     (Step.acquire (initState 5) 0 rfl rfl),
   collector_only_grows.2.2 String procBoom ⟨["a"]⟩⟩

/-- C9: on every normal completion (a reachable state in which all workers
have joined), main returns exit code 0, for any per-element process
behaviour, including ones that throw during consumption. -/
theorem exit_code_zero (process : MarketData → List String × Option String)
    (v : Vals n) (s : SysState n) (_hs : Reachable v s)
    (_hdone : ∀ i, s.pc i = PC.done) :
    (mainResultWith process s).2 = 0 := rfl

theorem exit_code_zero_witness :
    (mainResultWith (fun _ => ([], none)) demoFinal).2 = 0 :=
  exit_code_zero (fun _ => ([], none)) demoVals demoFinal demoReach (by decide)
